import Mathlib

/-!
Formal model of the two probabilistic data structures of this repository:
a Bloom filter (`task01.py`, class `BloomFilter`) and a HyperLogLog
cardinality estimator (`task02.py`, class `HyperLogLog`).

Modelling conventions:
* Python `int` values are modelled as `Nat` (they are non-negative in every
  reachable state) or `Int` where a negative argument matters;
* Python `float` arithmetic is modelled over the real numbers `ℝ`
  (`math.log` becomes `Real.log`);
* a possibly-`None` item is an `Option String`; `str(item)` is `pyStr`;
* the external hash functions (`hashlib.md5`, `hashlib.sha256`, `mmh3.hash`)
  are opaque function parameters of the operations that use them;
* a raised `ValueError` is modelled by an `Option` result of the constructor
  (`none` = the constructor raised before the internal array was allocated).
-/

/-- Python textual form of an optional item: `str(None) = "None"`,
`str(s) = s` for a string `s`. -/
def pyStr (item : Option String) : String :=
  match item with
  | none => "None"
  | some s => s

/-- UTF-8 byte form of a string (`s.encode('utf-8')`), as a list of byte
values. -/
def encodeUTF8 (s : String) : List Nat :=
  s.toUTF8.toList.map (fun b => b.toNat)

/-- State of a `task01.py` `BloomFilter` instance: `size`, `num_hashes` and
the bit array (a list of `size` ints, each `0` or `1` in reachable states). -/
structure BloomFilter where
  size : Nat
  num_hashes : Nat
  bit_array : List Nat
deriving DecidableEq

/-- `BloomFilter.__init__(size, num_hashes)` over integer arguments.
The `isinstance(·, int)` half of each guard is identically true here, so the
constructor raises `ValueError` (modelled as `none`) exactly when an argument
is not positive; otherwise it allocates the all-zero bit array. -/
def bloomInit (size num_hashes : Int) : Option BloomFilter :=
  if 0 < size then
    if 0 < num_hashes then
      some { size := size.toNat, num_hashes := num_hashes.toNat,
             bit_array := List.replicate size.toNat 0 }
    else none
  else none

/-- `BloomFilter._get_hashes(item)`: `[]` for `None`, otherwise the
`num_hashes` double-hashing indices `(hash1 + i*hash2) % size` where `hash1`
and `hash2` are the md5 and sha256 fingerprints of the UTF-8 bytes of
`str(item)`. -/
def getHashes (md5h sha256h : List Nat → Nat) (bf : BloomFilter)
    (item : Option String) : List Nat :=
  match item with
  | none => []
  | some s =>
    let item_bytes := encodeUTF8 (pyStr (some s))
    let hash1 := md5h item_bytes
    let hash2 := sha256h item_bytes
    (List.range bf.num_hashes).map (fun i => (hash1 + i * hash2) % bf.size)

/-- `BloomFilter.add(item)`: set every derived index of the bit array to 1. -/
def bloomAdd (md5h sha256h : List Nat → Nat) (bf : BloomFilter)
    (item : Option String) : BloomFilter :=
  let indices := getHashes md5h sha256h bf item
  { bf with bit_array :=
      indices.foldl (fun arr index => arr.set index 1) bf.bit_array }

/-- `BloomFilter.check(item)`: `False` when the index list is empty and the
item is `None`; otherwise `True` iff no derived index holds a 0 bit. -/
def bloomCheck (md5h sha256h : List Nat → Nat) (bf : BloomFilter)
    (item : Option String) : Bool :=
  let indices := getHashes md5h sha256h bf item
  if indices = [] ∧ item = none then false
  else indices.all (fun index => bf.bit_array.getD index 0 != 0)

/-- `HyperLogLog._get_alpha()`: the bias constant as a function of the number
of registers `m`. -/
noncomputable def getAlpha (m : Nat) : ℝ :=
  if m = 16 then 0.673
  else if m = 32 then 0.697
  else if m = 64 then 0.709
  else 0.7213 / (1 + 1.079 / (m : ℝ))

/-- State of a `task02.py` `HyperLogLog` instance. -/
structure HyperLogLog where
  p : Nat
  m : Nat
  registers : List Nat
  alpha : ℝ

/-- `HyperLogLog.__init__(p)` for a non-negative precision: `m = 1 << p`,
all-zero register array, `alpha` derived from `m`. No validation is
performed. -/
noncomputable def hllInit (p : Nat) : HyperLogLog :=
  { p := p, m := 1 <<< p, registers := List.replicate (1 <<< p) 0,
    alpha := getAlpha (1 <<< p) }

/-- `HyperLogLog.__init__(p)` over a Python int precision: `1 << p` raises
`ValueError` (negative shift count) when `p < 0`, before the register array
is allocated; for `p ≥ 0` construction always succeeds — the constructor
contains no validation of its own. -/
noncomputable def hllConstruct (p : Int) : Option HyperLogLog :=
  if p < 0 then none else some (hllInit p.toNat)

/-- The `while (w & 1) == 0` loop of `HyperLogLog._rho`, with `r` the running
value of the Python local `rho`. The loop is only ever entered with `w ≠ 0`
(the `w = 0` branch returns earlier); on `w = 0` the Python loop would not
terminate, so the `w = 0` case here is an unreachable totality guard. -/
def rhoAux (w : Nat) (r : Nat) : Nat :=
  if h : w = 0 then r
  else if w % 2 = 0 then rhoAux (w / 2) (r + 1) else r
termination_by w
decreasing_by exact Nat.div_lt_self (Nat.pos_of_ne_zero h) (by omega)

/-- `HyperLogLog._rho(w)`: `32 - p + 1` for `w = 0`, otherwise the 1-based
position of the least-significant set bit of `w`. -/
def rho (p : Nat) (w : Nat) : Nat :=
  if w = 0 then 32 - p + 1
  else rhoAux w 1

/-- `HyperLogLog.add(item)`: hash `str(item)` to `x`, take the low `p` bits
as the bucket index `j` (via the mask `m - 1`), the remaining high bits as
the residual `w`, and raise register `j` to `max(registers[j], rho(w))`. -/
def hllAdd (mmh3h : String → Nat) (h : HyperLogLog)
    (item : Option String) : HyperLogLog :=
  let x := mmh3h (pyStr item)
  let j := x &&& (h.m - 1)
  let w := x >>> h.p
  { h with registers :=
      h.registers.set j (max (h.registers.getD j 0) (rho h.p w)) }

/-- The harmonic sum `Z = sum(2 ** -r for r in registers)` of
`HyperLogLog.count`. -/
noncomputable def harmonicZ (registers : List Nat) : ℝ :=
  (registers.map (fun (r : Nat) => (2 : ℝ) ^ (-(r : ℤ)))).sum

/-- `HyperLogLog.count()`: raw harmonic-mean estimate, then the small-range
(linear counting) correction, then the large-range correction. -/
noncomputable def hllCount (h : HyperLogLog) : ℝ :=
  let Z := harmonicZ h.registers
  let E := h.alpha * (h.m : ℝ) * (h.m : ℝ) / Z
  let V := h.registers.count 0
  let E1 := if 0 < V then
      (if E ≤ 5 * (h.m : ℝ) / 2 then
        (h.m : ℝ) * Real.log ((h.m : ℝ) / (V : ℝ)) else E)
    else E
  let H := (1 / 30 : ℝ) * 2 ^ 32
  if E1 > H then -(2 ^ 32 : ℝ) * Real.log (1 - E1 / 2 ^ 32) else E1

/-- The cardinality-estimate formula exactly as the specification words it:
`E = alpha·m²/Z`; if the number `V` of zero registers is positive and
`E ≤ 2.5·m`, `E` is replaced by `m·ln(m/V)`; then, if `E > 2^32/30`, `E` is
replaced by `−2^32·ln(1 − E/2^32)`; the final `E` is returned. -/
noncomputable def hllCountSpec (h : HyperLogLog) : ℝ :=
  let m : ℝ := (h.m : ℝ)
  let Z := harmonicZ h.registers
  let E := h.alpha * m ^ 2 / Z
  let V := h.registers.count 0
  let E1 := if 0 < V ∧ E ≤ 2.5 * m then m * Real.log (m / (V : ℝ)) else E
  if E1 > 2 ^ 32 / 30 then -(2 ^ 32 : ℝ) * Real.log (1 - E1 / 2 ^ 32) else E1

/-! ### Helper lemmas: bit-array updates -/

/-- `getD` after a single `set`: changed in bounds at the set position,
unchanged everywhere else. -/
lemma getD_set (arr : List Nat) (j i v : Nat) :
    (arr.set j v).getD i 0 =
      if j = i ∧ j < arr.length then v else arr.getD i 0 := by
  simp only [List.getD_eq_getElem?_getD, List.getElem?_set]
  rcases eq_or_ne j i with rfl | hne
  · by_cases hj : j < arr.length
    · simp [hj]
    · simp [hj, List.getElem?_eq_none (le_of_not_lt hj)]
  · simp [hne]

/-- Folding `set · 1` over an index list preserves the array length. -/
lemma length_foldl_set (indices : List Nat) (arr : List Nat) :
    (indices.foldl (fun a k => a.set k 1) arr).length = arr.length := by
  induction indices generalizing arr with
  | nil => rfl
  | cons x xs ih => simp only [List.foldl_cons]; rw [ih, List.length_set]

/-- A bit equal to 1 stays 1 under the fold that only sets bits to 1. -/
lemma foldl_set_getD_mono (indices : List Nat) (arr : List Nat) (i : Nat)
    (h : arr.getD i 0 = 1) :
    (indices.foldl (fun a k => a.set k 1) arr).getD i 0 = 1 := by
  induction indices generalizing arr with
  | nil => exact h
  | cons x xs ih =>
    simp only [List.foldl_cons]
    apply ih
    rw [getD_set]
    split
    · rfl
    · exact h

/-- An in-bounds position listed in `indices` holds 1 after the fold. -/
lemma foldl_set_getD_of_mem (indices : List Nat) (arr : List Nat) (i : Nat)
    (hi : i < arr.length) (hmem : i ∈ indices) :
    (indices.foldl (fun a k => a.set k 1) arr).getD i 0 = 1 := by
  induction indices generalizing arr with
  | nil => cases hmem
  | cons x xs ih =>
    simp only [List.foldl_cons]
    rcases List.mem_cons.mp hmem with rfl | hmem'
    · apply foldl_set_getD_mono
      rw [getD_set]
      simp [hi]
    · exact ih (arr.set x 1) (by rw [List.length_set]; exact hi) hmem'

/-- A position not listed in `indices` is unchanged by the fold. -/
lemma foldl_set_getD_of_not_mem (indices : List Nat) (arr : List Nat) (i : Nat)
    (hmem : i ∉ indices) :
    (indices.foldl (fun a k => a.set k 1) arr).getD i 0 = arr.getD i 0 := by
  induction indices generalizing arr with
  | nil => rfl
  | cons x xs ih =>
    simp only [List.foldl_cons]
    rw [ih (arr.set x 1) (fun hm => hmem (List.mem_cons_of_mem x hm)), getD_set]
    have hxi : ¬x = i := fun e => hmem (e ▸ List.mem_cons_self x xs)
    simp [hxi]

/-! ### Helper lemmas: Bloom filter operations -/

/-- `add` never changes `size` or `num_hashes`, and keeps the bit-array
length. -/
lemma bloomAdd_fields (md5h sha256h : List Nat → Nat) (bf : BloomFilter)
    (item : Option String) :
    (bloomAdd md5h sha256h bf item).size = bf.size ∧
    (bloomAdd md5h sha256h bf item).num_hashes = bf.num_hashes ∧
    (bloomAdd md5h sha256h bf item).bit_array.length = bf.bit_array.length :=
  ⟨rfl, rfl, length_foldl_set _ _⟩

/-- The derived index list only depends on `size` and `num_hashes`. -/
lemma getHashes_congr (md5h sha256h : List Nat → Nat) (bf bf' : BloomFilter)
    (item : Option String) (hs : bf'.size = bf.size)
    (hn : bf'.num_hashes = bf.num_hashes) :
    getHashes md5h sha256h bf' item = getHashes md5h sha256h bf item := by
  cases item <;> simp [getHashes, hs, hn]

/-- A 1 bit survives `add`. -/
lemma bloomAdd_keeps_one (md5h sha256h : List Nat → Nat) (bf : BloomFilter)
    (item : Option String) (i : Nat) (h : bf.bit_array.getD i 0 = 1) :
    (bloomAdd md5h sha256h bf item).bit_array.getD i 0 = 1 :=
  foldl_set_getD_mono _ _ _ h

/-- Fields and 1 bits survive any sequence of `add` calls. -/
lemma foldl_bloomAdd_invariant (md5h sha256h : List Nat → Nat)
    (items : List (Option String)) (st : BloomFilter) :
    (items.foldl (bloomAdd md5h sha256h) st).size = st.size ∧
    (items.foldl (bloomAdd md5h sha256h) st).num_hashes = st.num_hashes ∧
    (items.foldl (bloomAdd md5h sha256h) st).bit_array.length =
      st.bit_array.length ∧
    ∀ i, st.bit_array.getD i 0 = 1 →
      (items.foldl (bloomAdd md5h sha256h) st).bit_array.getD i 0 = 1 := by
  induction items generalizing st with
  | nil => exact ⟨rfl, rfl, rfl, fun _ h => h⟩
  | cons x xs ih =>
    simp only [List.foldl_cons]
    obtain ⟨hs, hn, hl, hone⟩ := ih (bloomAdd md5h sha256h st x)
    obtain ⟨hs', hn', hl'⟩ := bloomAdd_fields md5h sha256h st x
    exact ⟨hs.trans hs', hn.trans hn', hl.trans hl',
      fun i h => hone i (bloomAdd_keeps_one md5h sha256h st x i h)⟩

/-- `check` on a non-null item reduces to the all-bits-set test. -/
lemma bloomCheck_some (md5h sha256h : List Nat → Nat) (bf : BloomFilter)
    (s : String) :
    bloomCheck md5h sha256h bf (some s) =
      (getHashes md5h sha256h bf (some s)).all
        (fun index => bf.bit_array.getD index 0 != 0) := by
  simp [bloomCheck]

/-- Every derived index of a non-null item is below `size`. -/
lemma getHashes_lt_size (md5h sha256h : List Nat → Nat) (bf : BloomFilter)
    (s : String) (hsize : 0 < bf.size) :
    ∀ idx ∈ getHashes md5h sha256h bf (some s), idx < bf.size := by
  intro idx hidx
  simp only [getHashes, List.mem_map, List.mem_range] at hidx
  obtain ⟨i, _, rfl⟩ := hidx
  exact Nat.mod_lt _ hsize

/-- `check` returns true on a non-null item whose derived positions all
hold 1. -/
lemma check_all_one (md5h sha256h : List Nat → Nat) (bf : BloomFilter)
    (s : String)
    (h : ∀ idx ∈ getHashes md5h sha256h bf (some s),
      bf.bit_array.getD idx 0 = 1) :
    bloomCheck md5h sha256h bf (some s) = true := by
  rw [bloomCheck_some, List.all_eq_true]
  intro idx hidx
  have h1 := h idx hidx
  rw [List.getD_eq_getElem?_getD] at h1
  simp [h1]

/-- C1: no false negatives with monotone persistence — for a well-formed
Bloom filter and any non-null item `s`, `check s` is true immediately after
`add s`, and remains true after any further sequence of `add` calls, because
bits are only ever set to 1 and never cleared. -/
theorem c1_no_false_negatives (md5h sha256h : List Nat → Nat)
    (bf : BloomFilter) (s : String) (items : List (Option String))
    (hsize : 0 < bf.size) (hlen : bf.bit_array.length = bf.size) :
    bloomCheck md5h sha256h (bloomAdd md5h sha256h bf (some s)) (some s)
      = true ∧
    bloomCheck md5h sha256h
      (items.foldl (bloomAdd md5h sha256h)
        (bloomAdd md5h sha256h bf (some s))) (some s) = true := by
  have hadd := bloomAdd_fields md5h sha256h bf (some s)
  have hkey : ∀ idx ∈ getHashes md5h sha256h
      (bloomAdd md5h sha256h bf (some s)) (some s),
      (bloomAdd md5h sha256h bf (some s)).bit_array.getD idx 0 = 1 := by
    intro idx hidx
    rw [getHashes_congr md5h sha256h bf _ (some s) hadd.1 hadd.2.1] at hidx
    have hlt : idx < bf.bit_array.length := by
      rw [hlen]; exact getHashes_lt_size md5h sha256h bf s hsize idx hidx
    exact foldl_set_getD_of_mem _ _ _ hlt hidx
  obtain ⟨hs2, hn2, hl2, hone2⟩ :=
    foldl_bloomAdd_invariant md5h sha256h items
      (bloomAdd md5h sha256h bf (some s))
  refine ⟨check_all_one md5h sha256h _ s hkey,
    check_all_one md5h sha256h _ s ?_⟩
  intro idx hidx
  rw [getHashes_congr md5h sha256h _ _ (some s) hs2 hn2] at hidx
  exact hone2 idx (hkey idx hidx)

/-- Witness for C1 at a concrete filter, item and later add sequence. -/
theorem c1_no_false_negatives_witness :
    0 < (⟨5, 3, List.replicate 5 0⟩ : BloomFilter).size ∧
    (⟨5, 3, List.replicate 5 0⟩ : BloomFilter).bit_array.length =
      (⟨5, 3, List.replicate 5 0⟩ : BloomFilter).size ∧
    (bloomCheck (fun _ => 0) (fun _ => 1)
        (bloomAdd (fun _ => 0) (fun _ => 1)
          ⟨5, 3, List.replicate 5 0⟩ (some "a")) (some "a") = true ∧
      bloomCheck (fun _ => 0) (fun _ => 1)
        ([some "b", none].foldl (bloomAdd (fun _ => 0) (fun _ => 1))
          (bloomAdd (fun _ => 0) (fun _ => 1)
            ⟨5, 3, List.replicate 5 0⟩ (some "a"))) (some "a") = true) :=
  ⟨by decide, by decide,
    c1_no_false_negatives (fun _ => 0) (fun _ => 1)
      ⟨5, 3, List.replicate 5 0⟩ "a" [some "b", none]
      (by decide) (by decide)⟩

/-- C5: double-hashing probe derivation — the `hash_count` probe positions
of a non-null item are `(h1 + i·h2) mod size` for `i = 0..hash_count−1`
over the two base fingerprints of the item's UTF-8 byte form; `add` sets
exactly those positions to 1 (all others unchanged); `check` is true iff
all those positions currently hold 1. -/
theorem c5_double_hashing (md5h sha256h : List Nat → Nat) (bf : BloomFilter)
    (s : String) (hsize : 0 < bf.size) (hlen : bf.bit_array.length = bf.size)
    (hbits : ∀ b ∈ bf.bit_array, b = 0 ∨ b = 1) :
    getHashes md5h sha256h bf (some s) =
      (List.range bf.num_hashes).map
        (fun i => (md5h (encodeUTF8 s) + i * sha256h (encodeUTF8 s))
          % bf.size) ∧
    (∀ pos : Nat,
      (bloomAdd md5h sha256h bf (some s)).bit_array.getD pos 0 =
        if pos ∈ getHashes md5h sha256h bf (some s) then 1
        else bf.bit_array.getD pos 0) ∧
    (bloomCheck md5h sha256h bf (some s) = true ↔
      ∀ idx ∈ getHashes md5h sha256h bf (some s),
        bf.bit_array.getD idx 0 = 1) := by
  refine ⟨rfl, ?_, ?_⟩
  · intro pos
    by_cases hmem : pos ∈ getHashes md5h sha256h bf (some s)
    · have hlt : pos < bf.bit_array.length := by
        rw [hlen]; exact getHashes_lt_size md5h sha256h bf s hsize pos hmem
      rw [if_pos hmem]
      exact foldl_set_getD_of_mem _ _ _ hlt hmem
    · rw [if_neg hmem]
      exact foldl_set_getD_of_not_mem _ _ _ hmem
  · rw [bloomCheck_some, List.all_eq_true]
    constructor
    · intro hall idx hidx
      have hne : bf.bit_array.getD idx 0 ≠ 0 := by simpa using hall idx hidx
      have hlt : idx < bf.bit_array.length := by
        rw [hlen]; exact getHashes_lt_size md5h sha256h bf s hsize idx hidx
      have hmem : bf.bit_array.getD idx 0 ∈ bf.bit_array := by
        rw [List.getD_eq_getElem _ _ hlt]
        exact List.getElem_mem hlt
      rcases hbits _ hmem with h0 | h1
      · exact absurd h0 hne
      · exact h1
    · intro hall idx hidx
      have h1 := hall idx hidx
      rw [List.getD_eq_getElem?_getD] at h1
      simp [h1]

/-- Witness for C5 at a concrete filter and item. -/
theorem c5_double_hashing_witness :
    0 < (⟨5, 3, List.replicate 5 0⟩ : BloomFilter).size ∧
    (⟨5, 3, List.replicate 5 0⟩ : BloomFilter).bit_array.length =
      (⟨5, 3, List.replicate 5 0⟩ : BloomFilter).size ∧
    (∀ b ∈ (⟨5, 3, List.replicate 5 0⟩ : BloomFilter).bit_array,
      b = 0 ∨ b = 1) ∧
    (getHashes (fun _ => 0) (fun _ => 1) ⟨5, 3, List.replicate 5 0⟩
        (some "a") =
      (List.range (3 : Nat)).map
        (fun i => ((fun _ => 0) (encodeUTF8 "a")
          + i * (fun _ => 1) (encodeUTF8 "a")) % 5) ∧
    (∀ pos : Nat,
      (bloomAdd (fun _ => 0) (fun _ => 1) ⟨5, 3, List.replicate 5 0⟩
          (some "a")).bit_array.getD pos 0 =
        if pos ∈ getHashes (fun _ => 0) (fun _ => 1)
            ⟨5, 3, List.replicate 5 0⟩ (some "a") then 1
        else (⟨5, 3, List.replicate 5 0⟩ : BloomFilter).bit_array.getD
          pos 0) ∧
    (bloomCheck (fun _ => 0) (fun _ => 1) ⟨5, 3, List.replicate 5 0⟩
        (some "a") = true ↔
      ∀ idx ∈ getHashes (fun _ => 0) (fun _ => 1)
          ⟨5, 3, List.replicate 5 0⟩ (some "a"),
        (⟨5, 3, List.replicate 5 0⟩ : BloomFilter).bit_array.getD
          idx 0 = 1)) :=
  ⟨by decide, by decide, by decide,
    c5_double_hashing (fun _ => 0) (fun _ => 1) ⟨5, 3, List.replicate 5 0⟩
      "a" (by decide) (by decide) (by decide)⟩

/-! ### C3 and C4: null-item policy and construction validation -/

/-- Counterexample to C3 as stated: the estimator's `add` on a null item is
NOT a no-op. With the hash fixed to 0 on a fresh `p = 1` estimator,
`add(None)` hashes the string `"None"` and raises register 0 to the
sentinel rank 32, changing the internal state. -/
theorem c3_counterexample :
    (hllAdd (fun _ => 0) (hllInit 1) none).registers ≠
      (hllInit 1).registers := by
  decide

/-- C3 amended: the Bloom filter treats a null item as the defined
no-op/always-absent case (`add` leaves the state unchanged, `check` returns
false) and no operation fails on it; the estimator's `add` on a null item
also never fails, but instead of being a no-op it converts the item to the
string `"None"` and performs an ordinary add with it. -/
theorem c3_null_policy (md5h sha256h : List Nat → Nat)
    (mmh3h : String → Nat) (bf : BloomFilter) (h : HyperLogLog) :
    bloomAdd md5h sha256h bf none = bf ∧
    bloomCheck md5h sha256h bf none = false ∧
    hllAdd mmh3h h none = hllAdd mmh3h h (some "None") :=
  ⟨rfl, rfl, rfl⟩

/-- Counterexample to C4 as stated: constructing the estimator with the
non-positive precision 0 does not fail — the constructor performs no
validation and happily allocates `2^0 = 1` register. -/
theorem c4_counterexample : (hllConstruct 0).isSome = true := rfl

/-- C4 amended: the Bloom filter constructor validates its integer
arguments — it fails (before the bit array is allocated) iff `size` or
`hash_count` is not positive, and otherwise allocates an all-zero array of
length `size`; the estimator constructor performs no such validation: every
non-negative precision (0 included) succeeds with `2^p` all-zero registers,
and a negative precision fails only because `1 << p` is a negative shift,
again before the register array is allocated. -/
theorem c4_construction (size num_hashes p : Int) :
    ((bloomInit size num_hashes).map BloomFilter.bit_array =
      if 0 < size ∧ 0 < num_hashes
      then some (List.replicate size.toNat 0) else none) ∧
    ((hllConstruct p).map HyperLogLog.registers =
      if 0 ≤ p then some (List.replicate (2 ^ p.toNat) 0) else none) := by
  constructor
  · by_cases h1 : 0 < size
    · by_cases h2 : 0 < num_hashes
      · simp [bloomInit, h1, h2]
      · simp [bloomInit, h1, h2]
    · simp [bloomInit, h1]
  · by_cases hp : 0 ≤ p
    · rw [if_pos hp]
      simp [hllConstruct, not_lt.mpr hp, hllInit, Nat.one_shiftLeft]
    · rw [if_neg hp]
      simp [hllConstruct, lt_of_not_ge hp]

/-! ### C2, C7, C9: the count() formula -/

/-- The bias constant is always within `[0, 5/2]`. -/
lemma getAlpha_bounds (m : Nat) : 0 ≤ getAlpha m ∧ getAlpha m ≤ 5 / 2 := by
  unfold getAlpha
  split_ifs
  · constructor <;> norm_num
  · constructor <;> norm_num
  · constructor <;> norm_num
  · have hd : (0 : ℝ) ≤ 1.079 / (m : ℝ) := by positivity
    constructor
    · positivity
    · have h1 : (0.7213 : ℝ) / (1 + 1.079 / (m : ℝ)) ≤ 0.7213 :=
        div_le_self (by norm_num) (by linarith)
      linarith

/-- C2: `count()` computes exactly the specification's formula — harmonic
sum `Z`, raw estimate `E = alpha·m²/Z`, linear-counting replacement when
`V > 0` and `E ≤ 2.5·m`, then the large-range correction when the current
estimate exceeds `2^32/30`. -/
theorem c2_count_formula (h : HyperLogLog) : hllCount h = hllCountSpec h := by
  simp only [hllCount, hllCountSpec]
  have e1 : h.alpha * (h.m : ℝ) * (h.m : ℝ) = h.alpha * (h.m : ℝ) ^ 2 := by
    ring
  have e2 : (5 : ℝ) * (h.m : ℝ) / 2 = 2.5 * (h.m : ℝ) := by
    rw [show (2.5 : ℝ) = 5 / 2 by norm_num]; ring
  have e3 : ((1 : ℝ) / 30) * 2 ^ 32 = (2 : ℝ) ^ 32 / 30 := by
    ring
  rw [e1, e2, e3]
  have hinner : ∀ (X E : ℝ) (V : Nat),
      (if 0 < V then (if E ≤ 2.5 * (h.m : ℝ) then X else E) else E) =
      (if 0 < V ∧ E ≤ 2.5 * (h.m : ℝ) then X else E) := by
    intro X E V
    by_cases hv : 0 < V
    · by_cases he : E ≤ 2.5 * (h.m : ℝ)
      · rw [if_pos hv, if_pos he, if_pos ⟨hv, he⟩]
      · rw [if_pos hv, if_neg he, if_neg (fun hc => he hc.2)]
    · rw [if_neg hv, if_neg (fun hc => hv hc.1)]
  rw [hinner]

/-- `count()` on a state whose registers are all zero, with any bias
constant in `[0, 5/2]`, is exactly 0: `V = m`, the raw estimate passes the
`E ≤ 2.5·m` test, and linear counting gives `m·ln(m/m) = 0`. -/
lemma hllCount_all_zero (pp n : Nat) (a : ℝ) (h0 : 0 ≤ a) (h1 : a ≤ 5 / 2)
    (hn : 0 < n) :
    hllCount ⟨pp, n, List.replicate n 0, a⟩ = 0 := by
  have hnR : (0 : ℝ) < (n : ℝ) := by exact_mod_cast hn
  have hz : harmonicZ (List.replicate n 0) = (n : ℝ) := by
    rw [harmonicZ, List.map_replicate]
    have h20 : ((2 : ℝ) ^ (-((0 : Nat) : ℤ))) = 1 := by norm_num
    rw [h20, List.sum_replicate, nsmul_eq_mul, mul_one]
  have hvn : List.count 0 (List.replicate n 0) = n := by
    simp [List.count_replicate]
  have hE : a * (n : ℝ) * (n : ℝ) / (n : ℝ) = a * (n : ℝ) := by
    rw [mul_div_assoc, div_self (ne_of_gt hnR), mul_one]
  have hEle : a * (n : ℝ) ≤ 5 * (n : ℝ) / 2 := by nlinarith
  simp only [hllCount, hz, hvn, hE]
  rw [if_pos hn, if_pos hEle, div_self (ne_of_gt hnR), Real.log_one,
    mul_zero]
  rw [if_neg]
  norm_num

/-- C7: zero-state estimate — on a freshly constructed estimator (all `m`
registers equal to 0) `count()` returns exactly 0: `V = m`, the small-range
correction yields `m·ln(m/m) = 0`, and the large-range branch is not
taken. -/
theorem c7_zero_state (p : Nat) : hllCount (hllInit p) = 0 := by
  obtain ⟨h0, h1⟩ := getAlpha_bounds (1 <<< p)
  exact hllCount_all_zero p (1 <<< p) (getAlpha (1 <<< p)) h0 h1
    (by rw [Nat.one_shiftLeft]; positivity)

/-- C9: the harmonic sum `Z = Σ 2^(−r)` over a non-empty register list is
strictly positive, so the division `alpha·m²/Z` in `count()` is well
defined. -/
theorem c9_harmonic_positive (registers : List Nat)
    (h : registers ≠ []) : 0 < harmonicZ registers := by
  apply List.sum_pos
  · intro x hx
    simp only [List.mem_map] at hx
    obtain ⟨r, _, rfl⟩ := hx
    positivity
  · exact fun hcon => h (List.map_eq_nil_iff.mp hcon)

/-- Witness for C9 on the one-register state. -/
theorem c9_harmonic_positive_witness :
    ([0] : List Nat) ≠ [] ∧ 0 < harmonicZ [0] :=
  ⟨by decide, c9_harmonic_positive [0] (by decide)⟩

/-! ### C8: estimator idempotence -/

/-- Raising a register to the max with the same rank twice is the same as
doing it once. -/
lemma set_max_idem (regs : List Nat) (j r : Nat) :
    ((regs.set j (max (regs.getD j 0) r)).set j
      (max ((regs.set j (max (regs.getD j 0) r)).getD j 0) r)) =
    regs.set j (max (regs.getD j 0) r) := by
  by_cases hj : j < regs.length
  · rw [getD_set, if_pos ⟨rfl, hj⟩, max_assoc, max_self, List.set_set]
  · have hle := le_of_not_lt hj
    simp [List.set_eq_of_length_le hle]

/-- Adding the same item twice equals adding it once. -/
lemma hllAdd_idem (mmh3h : String → Nat) (h : HyperLogLog)
    (item : Option String) :
    hllAdd mmh3h (hllAdd mmh3h h item) item = hllAdd mmh3h h item := by
  simp only [hllAdd]
  congr 1
  exact set_max_idem h.registers _ _

/-- C8: estimator idempotence — after `add x`, adding `x` any number of
additional times leaves the whole register state, and therefore the value
of `count()`, identical to the state after the first add. -/
theorem c8_idempotent (mmh3h : String → Nat) (h : HyperLogLog)
    (item : Option String) (n : Nat) :
    (fun st => hllAdd mmh3h st item)^[n] (hllAdd mmh3h h item) =
      hllAdd mmh3h h item ∧
    hllCount ((fun st => hllAdd mmh3h st item)^[n]
      (hllAdd mmh3h h item)) = hllCount (hllAdd mmh3h h item) := by
  have hfix := @Function.iterate_fixed _ (fun st => hllAdd mmh3h st item)
    (hllAdd mmh3h h item) (hllAdd_idem mmh3h h item) n
  exact ⟨hfix, by rw [hfix]⟩

/-! ### C6: estimator add semantics -/

/-- For nonzero `w`, the `_rho` loop returns its accumulator plus the
number of trailing zero bits of `w`, and that count is the position of the
least-significant set bit. -/
lemma rhoAux_spec (w : Nat) (hw : w ≠ 0) :
    ∃ t : Nat, (∀ r : Nat, rhoAux w r = r + t) ∧
      Nat.testBit w t = true ∧ ∀ i < t, Nat.testBit w i = false := by
  induction w using Nat.strong_induction_on with
  | _ w ih =>
    by_cases heven : w % 2 = 0
    · have hw2 : w / 2 ≠ 0 := by omega
      obtain ⟨t, hrec, hbit, hlow⟩ :=
        ih (w / 2) (Nat.div_lt_self (Nat.pos_of_ne_zero hw) one_lt_two) hw2
      refine ⟨t + 1, ?_, ?_, ?_⟩
      · intro r
        rw [rhoAux, dif_neg hw, if_pos heven, hrec (r + 1)]
        omega
      · rw [Nat.testBit_succ]
        exact hbit
      · intro i hi
        cases i with
        | zero =>
          rw [Nat.testBit_zero]
          simp [heven]
        | succ i' =>
          rw [Nat.testBit_succ]
          exact hlow i' (by omega)
    · refine ⟨0, ?_, ?_, ?_⟩
      · intro r
        rw [rhoAux, dif_neg hw, if_neg heven]
        omega
      · rw [Nat.testBit_zero]
        simp
        omega
      · intro i hi
        omega

/-- For nonzero `w`, `rho p w - 1` is the position of the least-significant
set bit of `w`. -/
lemma rho_spec (p w : Nat) (hw : w ≠ 0) :
    Nat.testBit w (rho p w - 1) = true ∧
      ∀ i < rho p w - 1, Nat.testBit w i = false := by
  obtain ⟨t, hrec, hbit, hlow⟩ := rhoAux_spec w hw
  rw [rho, if_neg hw, hrec 1]
  have h1 : 1 + t - 1 = t := by omega
  rw [h1]
  exact ⟨hbit, hlow⟩

/-- C6: estimator add semantics — the low `p` bits of the hash give the
bucket index `j ∈ [0, m)`, the remaining high bits give the residual `w`,
`rho` computes the 1-based position of the least-significant set bit of `w`
(with sentinel `32 − p + 1` for `w = 0`), and `add` raises register `j` to
`max(registers[j], rho(w))`, leaving every other register unchanged. -/
theorem c6_add_semantics (mmh3h : String → Nat) (h : HyperLogLog)
    (item : Option String) (hm : h.m = 2 ^ h.p)
    (hlen : h.registers.length = h.m) (hp : h.p ≤ 32) :
    mmh3h (pyStr item) &&& (h.m - 1) = mmh3h (pyStr item) % 2 ^ h.p ∧
    mmh3h (pyStr item) &&& (h.m - 1) < h.m ∧
    mmh3h (pyStr item) >>> h.p = mmh3h (pyStr item) / 2 ^ h.p ∧
    rho h.p 0 = 32 - h.p + 1 ∧
    (mmh3h (pyStr item) >>> h.p ≠ 0 →
      Nat.testBit (mmh3h (pyStr item) >>> h.p)
        (rho h.p (mmh3h (pyStr item) >>> h.p) - 1) = true ∧
      ∀ i < rho h.p (mmh3h (pyStr item) >>> h.p) - 1,
        Nat.testBit (mmh3h (pyStr item) >>> h.p) i = false) ∧
    (hllAdd mmh3h h item).registers.getD
        (mmh3h (pyStr item) &&& (h.m - 1)) 0 =
      max (h.registers.getD (mmh3h (pyStr item) &&& (h.m - 1)) 0)
        (rho h.p (mmh3h (pyStr item) >>> h.p)) ∧
    ∀ i, i ≠ mmh3h (pyStr item) &&& (h.m - 1) →
      (hllAdd mmh3h h item).registers.getD i 0 =
        h.registers.getD i 0 := by
  have hmod : mmh3h (pyStr item) &&& (h.m - 1) =
      mmh3h (pyStr item) % 2 ^ h.p := by
    rw [hm]
    exact Nat.and_pow_two_sub_one_eq_mod _ _
  have hjlt : mmh3h (pyStr item) &&& (h.m - 1) < h.m := by
    rw [hmod, hm]
    exact Nat.mod_lt _ (Nat.pos_pow_of_pos _ (by norm_num))
  refine ⟨hmod, hjlt, Nat.shiftRight_eq_div_pow _ _, ?_, ?_, ?_, ?_⟩
  · rw [rho, if_pos rfl]
  · intro hw
    exact rho_spec h.p _ hw
  · show (h.registers.set _ _).getD _ 0 = _
    rw [getD_set, if_pos ⟨rfl, by rw [hlen]; exact hjlt⟩]
  · intro i hi
    show (h.registers.set _ _).getD i 0 = _
    rw [getD_set, if_neg]
    intro hc
    exact hi hc.1.symm

/-- Witness for C6 on a concrete estimator state and hash. -/
theorem c6_add_semantics_witness :
    (⟨2, 4, List.replicate 4 0, (0 : ℝ)⟩ : HyperLogLog).m =
      2 ^ (⟨2, 4, List.replicate 4 0, (0 : ℝ)⟩ : HyperLogLog).p ∧
    (⟨2, 4, List.replicate 4 0, (0 : ℝ)⟩ :
      HyperLogLog).registers.length =
      (⟨2, 4, List.replicate 4 0, (0 : ℝ)⟩ : HyperLogLog).m ∧
    (⟨2, 4, List.replicate 4 0, (0 : ℝ)⟩ : HyperLogLog).p ≤ 32 ∧
    ((fun _ => 6) (pyStr (some "a")) &&&
        ((⟨2, 4, List.replicate 4 0, (0 : ℝ)⟩ : HyperLogLog).m - 1) =
      (fun _ => 6) (pyStr (some "a")) %
        2 ^ (⟨2, 4, List.replicate 4 0, (0 : ℝ)⟩ : HyperLogLog).p ∧
    (fun _ => 6) (pyStr (some "a")) &&&
        ((⟨2, 4, List.replicate 4 0, (0 : ℝ)⟩ : HyperLogLog).m - 1) <
      (⟨2, 4, List.replicate 4 0, (0 : ℝ)⟩ : HyperLogLog).m ∧
    (fun _ => 6) (pyStr (some "a")) >>>
        (⟨2, 4, List.replicate 4 0, (0 : ℝ)⟩ : HyperLogLog).p =
      (fun _ => 6) (pyStr (some "a")) /
        2 ^ (⟨2, 4, List.replicate 4 0, (0 : ℝ)⟩ : HyperLogLog).p ∧
    rho (⟨2, 4, List.replicate 4 0, (0 : ℝ)⟩ : HyperLogLog).p 0 =
      32 - (⟨2, 4, List.replicate 4 0, (0 : ℝ)⟩ : HyperLogLog).p + 1 ∧
    ((fun _ => 6) (pyStr (some "a")) >>>
        (⟨2, 4, List.replicate 4 0, (0 : ℝ)⟩ : HyperLogLog).p ≠ 0 →
      Nat.testBit ((fun _ => 6) (pyStr (some "a")) >>>
          (⟨2, 4, List.replicate 4 0, (0 : ℝ)⟩ : HyperLogLog).p)
        (rho (⟨2, 4, List.replicate 4 0, (0 : ℝ)⟩ : HyperLogLog).p
          ((fun _ => 6) (pyStr (some "a")) >>>
            (⟨2, 4, List.replicate 4 0, (0 : ℝ)⟩ :
              HyperLogLog).p) - 1) = true ∧
      ∀ i < rho (⟨2, 4, List.replicate 4 0, (0 : ℝ)⟩ : HyperLogLog).p
          ((fun _ => 6) (pyStr (some "a")) >>>
            (⟨2, 4, List.replicate 4 0, (0 : ℝ)⟩ :
              HyperLogLog).p) - 1,
        Nat.testBit ((fun _ => 6) (pyStr (some "a")) >>>
          (⟨2, 4, List.replicate 4 0, (0 : ℝ)⟩ :
            HyperLogLog).p) i = false) ∧
    (hllAdd (fun _ => 6) ⟨2, 4, List.replicate 4 0, (0 : ℝ)⟩
        (some "a")).registers.getD
        ((fun _ => 6) (pyStr (some "a")) &&&
          ((⟨2, 4, List.replicate 4 0, (0 : ℝ)⟩ :
            HyperLogLog).m - 1)) 0 =
      max ((⟨2, 4, List.replicate 4 0, (0 : ℝ)⟩ :
          HyperLogLog).registers.getD
          ((fun _ => 6) (pyStr (some "a")) &&&
            ((⟨2, 4, List.replicate 4 0, (0 : ℝ)⟩ :
              HyperLogLog).m - 1)) 0)
        (rho (⟨2, 4, List.replicate 4 0, (0 : ℝ)⟩ : HyperLogLog).p
          ((fun _ => 6) (pyStr (some "a")) >>>
            (⟨2, 4, List.replicate 4 0, (0 : ℝ)⟩ :
              HyperLogLog).p)) ∧
    ∀ i, i ≠ (fun _ => 6) (pyStr (some "a")) &&&
        ((⟨2, 4, List.replicate 4 0, (0 : ℝ)⟩ :
          HyperLogLog).m - 1) →
      (hllAdd (fun _ => 6) ⟨2, 4, List.replicate 4 0, (0 : ℝ)⟩
          (some "a")).registers.getD i 0 =
        (⟨2, 4, List.replicate 4 0, (0 : ℝ)⟩ :
          HyperLogLog).registers.getD i 0) :=
  ⟨rfl, rfl, by norm_num,
    c6_add_semantics (fun _ => 6) ⟨2, 4, List.replicate 4 0, (0 : ℝ)⟩
      (some "a") rfl rfl (by norm_num)⟩

/-! ### C10: bounded registers -/

/-- The rank of a residual below `2^(32−p)` never exceeds the sentinel
`32 − p + 1`. -/
lemma rho_le (p w : Nat) (hw : w < 2 ^ (32 - p)) :
    rho p w ≤ 32 - p + 1 := by
  by_cases h0 : w = 0
  · rw [h0, rho, if_pos rfl]
  · obtain ⟨t, hrec, hbit, _⟩ := rhoAux_spec w h0
    rw [rho, if_neg h0, hrec 1]
    have ht : t < 32 - p := by
      by_contra hge
      push_neg at hge
      have hfalse : Nat.testBit w t = false :=
        Nat.testBit_eq_false_of_lt
          (lt_of_lt_of_le hw (Nat.pow_le_pow_right (by norm_num) hge))
      rw [hbit] at hfalse
      cases hfalse
    omega

/-- A single `add` preserves the register bound `32 − p + 1`, given a
32-bit hash. -/
lemma hllAdd_preserves_bound (mmh3h : String → Nat) (st : HyperLogLog)
    (item : Option String) (hp : st.p ≤ 32)
    (hhash : ∀ s : String, mmh3h s < 2 ^ 32)
    (hinv : ∀ r ∈ st.registers, r ≤ 32 - st.p + 1) :
    ∀ r ∈ (hllAdd mmh3h st item).registers, r ≤ 32 - st.p + 1 := by
  intro r hr
  have hset : r ∈ st.registers.set
      (mmh3h (pyStr item) &&& (st.m - 1))
      (max (st.registers.getD (mmh3h (pyStr item) &&& (st.m - 1)) 0)
        (rho st.p (mmh3h (pyStr item) >>> st.p))) := hr
  rcases List.mem_or_eq_of_mem_set hset with hmem | rfl
  · exact hinv r hmem
  · apply max_le
    · by_cases hj : mmh3h (pyStr item) &&& (st.m - 1) <
          st.registers.length
      · rw [List.getD_eq_getElem _ _ hj]
        exact hinv _ (List.getElem_mem hj)
      · rw [List.getD_eq_getElem?_getD,
          List.getElem?_eq_none (le_of_not_lt hj)]
        exact Nat.zero_le _
    · apply rho_le
      rw [Nat.shiftRight_eq_div_pow]
      rw [Nat.div_lt_iff_lt_mul (Nat.pos_pow_of_pos _ (by norm_num))]
      calc mmh3h (pyStr item) < 2 ^ 32 := hhash _
        _ = 2 ^ (32 - st.p) * 2 ^ st.p := by
            rw [← pow_add]
            congr 1
            omega

/-- The register bound is preserved by any sequence of `add` calls. -/
lemma foldl_hllAdd_bound (mmh3h : String → Nat)
    (items : List (Option String)) (st : HyperLogLog) (hp : st.p ≤ 32)
    (hhash : ∀ s : String, mmh3h s < 2 ^ 32)
    (hinv : ∀ r ∈ st.registers, r ≤ 32 - st.p + 1) :
    ∀ r ∈ (items.foldl (hllAdd mmh3h) st).registers,
      r ≤ 32 - st.p + 1 := by
  induction items generalizing st with
  | nil => exact hinv
  | cons x xs ih =>
    simp only [List.foldl_cons]
    exact ih (hllAdd mmh3h st x) hp
      (hllAdd_preserves_bound mmh3h st x hp hhash hinv)

/-- C10: bounded registers — for an estimator constructed with precision
`0 < p ≤ 32` and after any finite sequence of `add` calls with a 32-bit
hash, every register value lies in `[0, 32 − p + 1]`; in particular no
register ever exceeds the sentinel rank `32 − p + 1`. -/
theorem c10_bounded_registers (mmh3h : String → Nat) (p : Nat)
    (items : List (Option String)) (hp1 : 0 < p) (hp2 : p ≤ 32)
    (hhash : ∀ s : String, mmh3h s < 2 ^ 32) :
    ∀ r ∈ (items.foldl (hllAdd mmh3h) (hllInit p)).registers,
      r ≤ 32 - p + 1 := by
  apply foldl_hllAdd_bound mmh3h items (hllInit p) hp2 hhash
  intro r hr
  have : r = 0 := List.eq_of_mem_replicate hr
  omega

/-- Witness for C10 on a concrete precision, hash and item sequence. -/
theorem c10_bounded_registers_witness :
    0 < 4 ∧ 4 ≤ 32 ∧ (∀ s : String, (fun _ => 0) s < 2 ^ 32) ∧
    ∀ r ∈ ([some "a"].foldl (hllAdd (fun _ => 0))
        (hllInit 4)).registers, r ≤ 32 - 4 + 1 :=
  ⟨by norm_num, by norm_num, fun _ => by norm_num,
    c10_bounded_registers (fun _ => 0) 4 [some "a"]
      (by norm_num) (by norm_num) (fun _ => by norm_num)⟩
